import Mathlib

/-!
Verification of the Realm-Of-ReactJS repository against its
natural-language specification.

The repository's demo components (`src/HelloWord/src/App.jsx`,
`src/QR_Generator/src/components/QRGenerator.jsx`, the random-color
component) are embedded directly from their source. The reactive hook
execution model specified in the document (Cell Store, Dependency
Comparator, Effect Scheduler, Context Registry, Render Coordinator) is the
React runtime the demos call into; its implementation is not part of the
repository's sources, so those components are modelled from the
specification's own words, as marked on each definition.
-/

namespace ReactModel

/-! ## Counter component, from src/HelloWord/src/App.jsx

`App` holds one state cell `counter` initialised to 15.  The two click
handlers read the committed snapshot and conditionally request an update:

  AddValue: if (counter < 19) SetCounter(counter + 1)
  SubValue: if (counter > 0)  SetCounter(counter - 1)

Each handler invocation is applied to the committed state of the previous
pass. -/

def initialCounter : Int := 15

def AddValue (counter : Int) : Int :=
  if counter < 19 then counter + 1 else counter

def SubValue (counter : Int) : Int :=
  if counter > 0 then counter - 1 else counter

/-- A click event on one of the two buttons of `App`. -/
inductive CounterOp where
  | add
  | sub
deriving DecidableEq, Repr

def applyOp (c : Int) : CounterOp → Int
  | .add => AddValue c
  | .sub => SubValue c

/-- The counter value after a finite sequence of handler invocations,
each applied to the committed state of the previous pass. -/
def runCounter (ops : List CounterOp) : Int :=
  ops.foldl applyOp initialCounter

/-! ## QR generator component, from
src/QR_Generator/src/components/QRGenerator.jsx

Two state cells, `text` and `qrValue`, both initialised to `""`.
`handleGenerate` copies the current `text` snapshot into `qrValue`.
The JSX `{qrValue && (... <QRCodeCanvas value={qrValue}/> ...)}` renders
the QR block exactly when the string `qrValue` is truthy, i.e. non-empty. -/

structure QRState where
  text : String
  qrValue : String
deriving DecidableEq, Repr

def initQRState : QRState := { text := "", qrValue := "" }

def handleGenerate (s : QRState) : QRState :=
  { s with qrValue := s.text }

def setText (s : QRState) (t : String) : QRState :=
  { s with text := t }

/-- JavaScript truthiness of a string: `""` is falsy, every other string
is truthy.  `{qrValue && block}` renders `block` iff this is `true`. -/
def stringTruthy (s : String) : Bool := s ≠ ""

def rendersQRBlock (s : QRState) : Bool := stringTruthy s.qrValue

/-! ## Dependency Comparator

Modelled from the spec: the repository contains only callers of the React
runtime (markdown tutorials and demo components); the comparator
`changed(prev, next)` of §4.2 is not under src/, so it is defined from the
specification's words: true if `prev` is none (first run), if lengths
differ, or if any element differs at the same index. -/

def changed {α : Type} [DecidableEq α] (prev : Option (List α)) (next : List α) : Bool :=
  match prev with
  | none => true
  | some p => p.length != next.length || (p.zip next).any (fun ab => ab.1 != ab.2)

/-- Modelled from the spec: the three dependency-argument forms a hook call
can take — omitted entirely, the empty sequence, or a populated sequence.
`omitted` and `given []` are distinct values, as §4.2 requires. -/
inductive DepsArg (α : Type) where
  | omitted
  | given : List α → DepsArg α
deriving DecidableEq, Repr

/-- Modelled from the spec: re-execution decision for a cell whose stored
dependency argument is `prev` and whose current pass supplies `next`.  An
omitted argument always compares as changed (run-every-pass semantics);
two given lists are compared by the Dependency Comparator. -/
def argChanged {α : Type} [DecidableEq α] (prev next : DepsArg α) : Bool :=
  match prev, next with
  | _, .omitted => true
  | .omitted, .given _ => true
  | .given p, .given n => changed (some p) n

/-! ## StateCell and the Render Coordinator's update queue

Modelled from the spec: a StateCell (§3) holds a current value and a
pending-update queue; a setter enqueues a new value or an updater function
of the previous value.  The Render Coordinator (§4.5, §5) queues update
requests arriving while `Idle` and coalesces all requests that arrived
before the pass starts into a single pass. -/

inductive Update (α : Type) where
  | newValue : α → Update α
  | updater : (α → α) → Update α

def applyUpdate {α : Type} (v : α) : Update α → α
  | .newValue w => w
  | .updater f => f v

structure StateCell (α : Type) where
  value : α
  pending : List (Update α)

def enqueue {α : Type} (c : StateCell α) (u : Update α) : StateCell α :=
  { c with pending := c.pending ++ [u] }

/-- Modelled from the spec: when a pass begins, the buffered updates are
applied in arrival order to produce the value the new pass reads, and the
queue empties. -/
def drain {α : Type} (c : StateCell α) : StateCell α :=
  { value := c.pending.foldl applyUpdate c.value, pending := [] }

/-- A component instance as seen by the Render Coordinator: its single
StateCell and the number of render passes executed so far. -/
structure Inst (α : Type) where
  cell : StateCell α
  passes : Nat

/-- An event at the coordinator: an update request arriving in the batch
window, or the coordinator starting the scheduled pass. -/
inductive Ev (α : Type) where
  | request : Update α → Ev α
  | runPass

/-- Modelled from the spec: update requests are queued, not executed
immediately; a pass start drains the whole queue in one pass (and a pass
start with an empty queue executes no pass, since nothing was scheduled). -/
def stepEv {α : Type} (s : Inst α) : Ev α → Inst α
  | .request u => { s with cell := enqueue s.cell u }
  | .runPass =>
      if s.cell.pending.isEmpty then s
      else { cell := drain s.cell, passes := s.passes + 1 }

def runEvents {α : Type} (s : Inst α) (evs : List (Ev α)) : Inst α :=
  evs.foldl stepEv s

/-! ## Render-pass execution against a StateCell

Modelled from the spec: during one render pass the render function
interleaves reads of the StateCell with setter calls (§4.1 side effect:
writes made during a pass are buffered; all reads within one render see a
consistent snapshot).  A pass is a list of such actions. -/

inductive RenderAct (α : Type) where
  | read
  | set : Update α → RenderAct α

/-- Executes a render pass's actions against the cell: a `read` observes
the cell's current value, a `set` buffers an update in the pending queue.
Returns the cell after the pass and the list of values the reads observed. -/
def execRender {α : Type} (cell : StateCell α) :
    List (RenderAct α) → StateCell α × List α
  | [] => (cell, [])
  | .read :: rest =>
      let out := execRender cell rest
      (out.1, cell.value :: out.2)
  | .set u :: rest => execRender (enqueue cell u) rest

/-- The number of reads a render pass performs. -/
def countReads {α : Type} : List (RenderAct α) → Nat
  | [] => 0
  | .read :: rest => countReads rest + 1
  | .set _ :: rest => countReads rest

/-- The updates a render pass enqueues, in order. -/
def setsOf {α : Type} : List (RenderAct α) → List (Update α)
  | [] => []
  | .read :: rest => setsOf rest
  | .set u :: rest => u :: setsOf rest

/-! ## MemoCell

Modelled from the spec: a MemoCell (§3) holds a cached value plus the
dependency list used to produce it; `nextMemoCell(compute, deps)` (§4.1)
creates the cell on first pass and on later passes recomputes only when
the dependency list differs by the Dependency Comparator.  The second
component of the result counts how many times the compute function was
invoked by the call. -/

structure MemoCell (α : Type) where
  value : α
  deps : List α

def nextMemoCell {α : Type} [DecidableEq α] (prev : Option (MemoCell α))
    (compute : Unit → α) (deps : List α) : MemoCell α × Nat :=
  match prev with
  | none => ({ value := compute (), deps := deps }, 1)
  | some c =>
      if changed (some c.deps) deps then ({ value := compute (), deps := deps }, 1)
      else (c, 0)

/-! ## Effect Scheduler

Modelled from the spec: an EffectCell (§3) holds its dependency list from
the most recent pass and whether the last invocation returned a cleanup;
after a pass commits, every EffectCell whose dependency list changed has
its previous cleanup (if any) invoked before the effect re-runs, effects
within one instance run in ascending cell-position order, and at instance
destruction every outstanding cleanup runs once in ascending position
order (§4.3).  The scheduler's observable behaviour is the trace of
`run`/`cleanup` events it emits. -/

inductive EvKind where
  | cleanup
  | run
deriving DecidableEq, Repr

structure Event where
  pos : Nat
  kind : EvKind
  pass : Nat
deriving DecidableEq, Repr

/-- What the render function supplies for one effect cell: the dependency
argument at each pass, and whether the effect body returns a cleanup. -/
structure EffectSpec (α : Type) where
  deps : Nat → DepsArg α
  producesCleanup : Bool

structure EffectState (α : Type) where
  deps : DepsArg α
  hasCleanup : Bool

/-- The stored state of one effect cell after pass `n` (pass 0 is the
mount pass, which always runs the effect on first creation). -/
def cellStateAt {α : Type} [DecidableEq α] (spec : EffectSpec α) : Nat → EffectState α
  | 0 => { deps := spec.deps 0, hasCleanup := spec.producesCleanup }
  | n + 1 =>
      let st := cellStateAt spec n
      if argChanged st.deps (spec.deps (n + 1)) then
        { deps := spec.deps (n + 1), hasCleanup := spec.producesCleanup }
      else { deps := spec.deps (n + 1), hasCleanup := st.hasCleanup }

/-- The events one effect cell at position `pos` contributes to pass `n`:
on mount the effect runs; on a later pass whose dependency argument
compares as changed, the previous cleanup (if any) runs first, then the
effect re-runs; otherwise nothing happens. -/
def cellEvents {α : Type} [DecidableEq α] (spec : EffectSpec α) (pos : Nat) :
    Nat → List Event
  | 0 => [⟨pos, .run, 0⟩]
  | n + 1 =>
      let st := cellStateAt spec n
      if argChanged st.deps (spec.deps (n + 1)) then
        (if st.hasCleanup then [⟨pos, .cleanup, n + 1⟩] else []) ++ [⟨pos, .run, n + 1⟩]
      else []

/-- Events of pass `n` for the cells `specs`, assigned ascending positions
starting at `pos`: cells execute in ascending cell-position order. -/
def passTraceAux {α : Type} [DecidableEq α] (n : Nat) :
    List (EffectSpec α) → Nat → List Event
  | [], _ => []
  | spec :: specs, pos => cellEvents spec pos n ++ passTraceAux n specs (pos + 1)

def passTrace {α : Type} [DecidableEq α] (specs : List (EffectSpec α)) (n : Nat) :
    List Event :=
  passTraceAux n specs 0

/-- Events of passes `0..k` in order. -/
def passesUpTo {α : Type} [DecidableEq α] (specs : List (EffectSpec α)) : Nat → List Event
  | 0 => passTrace specs 0
  | k + 1 => passesUpTo specs k ++ passTrace specs (k + 1)

/-- At instance destruction after pass `k`, each cell's outstanding
cleanup (if any) runs, in ascending position order; the destruction step
is tagged `k + 1`. -/
def unmountTraceAux {α : Type} [DecidableEq α] (k : Nat) :
    List (EffectSpec α) → Nat → List Event
  | [], _ => []
  | spec :: specs, pos =>
      (if (cellStateAt spec k).hasCleanup then [⟨pos, .cleanup, k + 1⟩] else []) ++
        unmountTraceAux k specs (pos + 1)

def unmountTrace {α : Type} [DecidableEq α] (specs : List (EffectSpec α)) (k : Nat) :
    List Event :=
  unmountTraceAux k specs 0

/-- The full observable trace of an instance mounted, re-rendered for
passes `1..k`, and then destroyed. -/
def lifecycleTrace {α : Type} [DecidableEq α] (specs : List (EffectSpec α)) (k : Nat) :
    List Event :=
  passesUpTo specs k ++ unmountTrace specs k

def evMatches (p : Nat) (kd : EvKind) (e : Event) : Bool :=
  e.pos == p && e.kind == kd

/-- How many events of kind `kd` the trace `t` holds at position `p`. -/
def countEv (t : List Event) (p : Nat) (kd : EvKind) : Nat :=
  t.countP (evMatches p kd)

/-! ## Context Registry

Modelled from the spec: a provider publishes values keyed by context
identity at a node; a consumer's `read` walks from its node toward the
root and returns the first publisher's value for that identity, or the
context's declared default if the walk reaches the root without one
(§4.4).  A consumer's view of the tree is its ancestor chain, consumer
end first, root last. -/

structure CtxNode (ι α : Type) where
  pubs : List (ι × α)

def lookupPub {ι α : Type} [DecidableEq ι] (ctx : ι) : List (ι × α) → Option α
  | [] => none
  | (c, v) :: rest => if c = ctx then some v else lookupPub ctx rest

def readCtx {ι α : Type} [DecidableEq ι] (chain : List (CtxNode ι α)) (ctx : ι)
    (dflt : α) : α :=
  match chain with
  | [] => dflt
  | node :: rest =>
      match lookupPub ctx node.pubs with
      | some v => v
      | none => readCtx rest ctx dflt

/-! ## Cell-count validation at endPass

Modelled from the spec: `endPass()` (§4.1) asserts the cursor consumed
the same count of cells as the prior pass for this instance; a mismatch
signals CellCountMismatchError.  A render function is represented by the
count of cell-creating calls it makes on each pass (a conditional hook
call makes this count pass-dependent). -/

inductive RenderError where
  | cellCountMismatch
  | cellIdentity
deriving DecidableEq, Repr

def endPass (prior : Option Nat) (consumed : Nat) : Except RenderError Nat :=
  match prior with
  | none => .ok consumed
  | some c => if consumed = c then .ok consumed else .error .cellCountMismatch

/-- Runs the mount pass and one update pass of an instance whose render
function makes `f n` cell-creating calls on pass `n`, validating the
count at each `endPass`. -/
def runTwoPasses (f : Nat → Nat) : Except RenderError Nat :=
  match endPass none (f 0) with
  | .error e => .error e
  | .ok c1 =>
      match endPass (some c1) (f 1) with
      | .error e => .error e
      | .ok c2 => .ok c2

/-- Renders a list of sibling instances; each outcome is per-instance. -/
def renderAll (fs : List (Nat → Nat)) : List (Except RenderError Nat) :=
  fs.map runTwoPasses

end ReactModel

namespace ReactModel

theorem addValue_of_lt {c : Int} (h : c < 19) : AddValue c = c + 1 := by
  simp [AddValue, h]

theorem addValue_of_ge {c : Int} (h : 19 ≤ c) : AddValue c = c := by
  simp [AddValue, not_lt.mpr h]

theorem subValue_of_pos {c : Int} (h : 0 < c) : SubValue c = c - 1 := by
  simp [SubValue, h]

theorem subValue_of_nonpos {c : Int} (h : c ≤ 0) : SubValue c = c := by
  simp [SubValue, not_lt.mpr h]

theorem applyOp_bounds {c : Int} (h0 : 0 ≤ c) (h19 : c ≤ 19) (op : CounterOp) :
    0 ≤ applyOp c op ∧ applyOp c op ≤ 19 := by
  cases op with
  | add =>
      by_cases h : c < 19
      · rw [applyOp, addValue_of_lt h]
        omega
      · rw [applyOp, addValue_of_ge (not_lt.mp h)]
        omega
  | sub =>
      by_cases h : 0 < c
      · rw [applyOp, subValue_of_pos h]
        omega
      · rw [applyOp, subValue_of_nonpos (not_lt.mp h)]
        omega

theorem foldl_applyOp_bounds (ops : List CounterOp) {c : Int}
    (h0 : 0 ≤ c) (h19 : c ≤ 19) :
    0 ≤ ops.foldl applyOp c ∧ ops.foldl applyOp c ≤ 19 := by
  induction ops generalizing c with
  | nil => exact ⟨h0, h19⟩
  | cons op rest ih =>
      obtain ⟨ha, hb⟩ := applyOp_bounds h0 h19 op
      exact ih ha hb

theorem runEvents_cons {α : Type} (s : Inst α) (e : Ev α) (evs : List (Ev α)) :
    runEvents s (e :: evs) = runEvents (stepEv s e) evs := rfl

theorem runEvents_append {α : Type} (s : Inst α) (l₁ l₂ : List (Ev α)) :
    runEvents s (l₁ ++ l₂) = runEvents (runEvents s l₁) l₂ := by
  simp [runEvents, List.foldl_append]

theorem runEvents_requests {α : Type} (s : Inst α) (us : List (Update α)) :
    runEvents s (us.map .request) =
      { s with cell := { s.cell with pending := s.cell.pending ++ us } } := by
  induction us generalizing s with
  | nil => simp [runEvents]
  | cons u rest ih =>
      rw [List.map_cons, runEvents_cons, ih]
      simp [stepEv, enqueue]

theorem runPass_of_pending_ne {α : Type} (s : Inst α) (h : s.cell.pending ≠ []) :
    stepEv s .runPass = { cell := drain s.cell, passes := s.passes + 1 } := by
  simp [stepEv, List.isEmpty_iff, h]

theorem foldl_newValue_getLast {α : Type} (v : α) (vs : List α) :
    (vs.map Update.newValue).foldl applyUpdate v = vs.getLast?.getD v := by
  induction vs generalizing v with
  | nil => rfl
  | cons a rest ih =>
      rw [List.map_cons, List.foldl_cons]
      cases rest with
      | nil => rfl
      | cons b t =>
          rw [ih, List.getLast?_cons_cons]
          obtain ⟨x, hx⟩ := Option.isSome_iff_exists.mp
            (List.getLast?_isSome.mpr (List.cons_ne_nil b t))
          rw [hx]
          rfl

theorem zip_any_ne_iff {α : Type} [DecidableEq α] (p n : List α) :
    ((p.zip n).any fun ab => ab.1 != ab.2) = true ↔
      ∃ i, ∃ hp : i < p.length, ∃ hn : i < n.length,
        p.get ⟨i, hp⟩ ≠ n.get ⟨i, hn⟩ := by
  simp only [List.any_eq_true, bne_iff_ne, ne_eq]
  constructor
  · rintro ⟨⟨a, b⟩, hmem, hne⟩
    obtain ⟨i, hi, hget⟩ := List.mem_iff_getElem.mp hmem
    rw [List.length_zip] at hi
    have hp : i < p.length := lt_of_lt_of_le hi (min_le_left _ _)
    have hn : i < n.length := lt_of_lt_of_le hi (min_le_right _ _)
    refine ⟨i, hp, hn, ?_⟩
    have hz : (p.zip n)[i] = (p[i], n[i]) := List.getElem_zip
    rw [hz] at hget
    injection hget with h1 h2
    simpa [List.get_eq_getElem, h1, h2] using hne
  · rintro ⟨i, hp, hn, hne⟩
    have hi : i < (p.zip n).length := by
      rw [List.length_zip]
      omega
    refine ⟨(p[i], n[i]), ?_, ?_⟩
    · have hz : (p.zip n)[i] = (p[i], n[i]) := List.getElem_zip
      exact hz ▸ List.getElem_mem hi
    · simpa [List.get_eq_getElem] using hne

theorem changed_some_iff {α : Type} [DecidableEq α] (p next : List α) :
    changed (some p) next = true ↔
      p.length ≠ next.length ∨
        ∃ i, ∃ hp : i < p.length, ∃ hn : i < next.length,
          p.get ⟨i, hp⟩ ≠ next.get ⟨i, hn⟩ := by
  rw [changed, Bool.or_eq_true, bne_iff_ne, zip_any_ne_iff]

theorem execRender_spec {α : Type} (acts : List (RenderAct α)) (cell : StateCell α) :
    (execRender cell acts).2 = List.replicate (countReads acts) cell.value ∧
      (execRender cell acts).1.value = cell.value ∧
      (execRender cell acts).1.pending = cell.pending ++ setsOf acts := by
  induction acts generalizing cell with
  | nil => simp [execRender, countReads, setsOf]
  | cons a rest ih =>
      cases a with
      | read =>
          obtain ⟨h1, h2, h3⟩ := ih cell
          refine ⟨?_, h2, h3⟩
          simp [execRender, countReads, List.replicate_succ, h1]
      | set u =>
          obtain ⟨h1, h2, h3⟩ := ih (enqueue cell u)
          refine ⟨?_, ?_, ?_⟩
          · simpa [execRender, countReads, enqueue] using h1
          · simpa [execRender, enqueue] using h2
          · rw [execRender, h3]
            simp [enqueue, setsOf]

theorem changed_refl {α : Type} [DecidableEq α] (p : List α) :
    changed (some p) p = false := by
  rw [Bool.eq_false_iff]
  intro h
  rw [changed_some_iff] at h
  rcases h with h | ⟨i, hp, hn, hne⟩
  · exact h rfl
  · exact hne rfl

theorem mem_cellEvents {α : Type} [DecidableEq α] {spec : EffectSpec α} {pos n : Nat}
    {e : Event} (he : e ∈ cellEvents spec pos n) : e.pos = pos ∧ e.pass = n := by
  cases n with
  | zero =>
      simp only [cellEvents, List.mem_singleton] at he
      subst he
      exact ⟨rfl, rfl⟩
  | succ n =>
      simp only [cellEvents] at he
      split at he
      · rcases List.mem_append.mp he with h | h
        · split at h
          · simp only [List.mem_singleton] at h
            subst h
            exact ⟨rfl, rfl⟩
          · simp at h
        · simp only [List.mem_singleton] at h
          subst h
          exact ⟨rfl, rfl⟩
      · simp at he

theorem mem_passTraceAux {α : Type} [DecidableEq α] {n : Nat}
    {specs : List (EffectSpec α)} {pos0 : Nat} {e : Event}
    (he : e ∈ passTraceAux n specs pos0) :
    ∃ i, ∃ hi : i < specs.length,
      e ∈ cellEvents (specs.get ⟨i, hi⟩) (pos0 + i) n := by
  induction specs generalizing pos0 with
  | nil => simp [passTraceAux] at he
  | cons spec specs ih =>
      rcases List.mem_append.mp he with h | h
      · exact ⟨0, Nat.succ_pos _, by simpa using h⟩
      · obtain ⟨i, hi, hmem⟩ := ih h
        refine ⟨i + 1, Nat.succ_lt_succ hi, ?_⟩
        have : pos0 + 1 + i = pos0 + (i + 1) := by omega
        rw [← this]
        simpa using hmem

theorem mem_passTraceAux_pos {α : Type} [DecidableEq α] {n : Nat}
    {specs : List (EffectSpec α)} {pos0 : Nat} {e : Event}
    (he : e ∈ passTraceAux n specs pos0) :
    pos0 ≤ e.pos ∧ e.pos < pos0 + specs.length ∧ e.pass = n := by
  obtain ⟨i, hi, hmem⟩ := mem_passTraceAux he
  obtain ⟨hpos, hpass⟩ := mem_cellEvents hmem
  refine ⟨?_, ?_, hpass⟩ <;> omega

theorem countEv_append (t₁ t₂ : List Event) (p : Nat) (kd : EvKind) :
    countEv (t₁ ++ t₂) p kd = countEv t₁ p kd + countEv t₂ p kd := by
  simp [countEv, List.countP_append]

theorem countEv_eq_zero_of_pos_ne {t : List Event} {p : Nat} {kd : EvKind}
    (h : ∀ e ∈ t, e.pos ≠ p) : countEv t p kd = 0 := by
  rw [countEv, List.countP_eq_zero]
  intro e he
  simp [evMatches, h e he]

theorem countEv_passTraceAux {α : Type} [DecidableEq α] (n : Nat)
    (specs : List (EffectSpec α)) (pos0 p : Nat) (hp : p < specs.length) (kd : EvKind) :
    countEv (passTraceAux n specs pos0) (pos0 + p) kd =
      countEv (cellEvents (specs.get ⟨p, hp⟩) (pos0 + p) n) (pos0 + p) kd := by
  induction specs generalizing pos0 p with
  | nil => exact absurd hp (Nat.not_lt_zero p)
  | cons spec specs ih =>
      rw [passTraceAux, countEv_append]
      cases p with
      | zero =>
          have hz : countEv (passTraceAux n specs (pos0 + 1)) (pos0 + 0) kd = 0 := by
            apply countEv_eq_zero_of_pos_ne
            intro e he
            have := (mem_passTraceAux_pos he).1
            omega
          simpa using hz
      | succ p =>
          have hz : countEv (cellEvents spec pos0 n) (pos0 + (p + 1)) kd = 0 := by
            apply countEv_eq_zero_of_pos_ne
            intro e he
            have := (mem_cellEvents he).1
            omega
          rw [hz, Nat.zero_add]
          have harr : pos0 + (p + 1) = (pos0 + 1) + p := by omega
          rw [harr]
          exact ih (pos0 + 1) p (Nat.lt_of_succ_lt_succ hp)

theorem mem_unmountTraceAux {α : Type} [DecidableEq α] {k : Nat}
    {specs : List (EffectSpec α)} {pos0 : Nat} {e : Event}
    (he : e ∈ unmountTraceAux k specs pos0) :
    pos0 ≤ e.pos ∧ e.kind = .cleanup ∧ e.pass = k + 1 := by
  induction specs generalizing pos0 with
  | nil => simp [unmountTraceAux] at he
  | cons spec specs ih =>
      rcases List.mem_append.mp he with h | h
      · split at h
        · simp only [List.mem_singleton] at h
          subst h
          exact ⟨Nat.le_refl _, rfl, rfl⟩
        · simp at h
      · obtain ⟨h1, h2, h3⟩ := ih h
        exact ⟨by omega, h2, h3⟩

theorem countEv_unmountTraceAux {α : Type} [DecidableEq α] (k : Nat)
    (specs : List (EffectSpec α)) (pos0 p : Nat) (hp : p < specs.length) :
    countEv (unmountTraceAux k specs pos0) (pos0 + p) .cleanup =
      if (cellStateAt (specs.get ⟨p, hp⟩) k).hasCleanup then 1 else 0 := by
  induction specs generalizing pos0 p with
  | nil => exact absurd hp (Nat.not_lt_zero p)
  | cons spec specs ih =>
      rw [unmountTraceAux, countEv_append]
      cases p with
      | zero =>
          have hz : countEv (unmountTraceAux k specs (pos0 + 1)) (pos0 + 0) .cleanup = 0 := by
            apply countEv_eq_zero_of_pos_ne
            intro e he
            have := (mem_unmountTraceAux he).1
            omega
          rw [hz, Nat.add_zero]
          by_cases h : (cellStateAt spec k).hasCleanup
          · simp [h, countEv, evMatches]
          · simp [h, countEv]
      | succ p =>
          have hz :
              countEv (if (cellStateAt spec k).hasCleanup then
                  [⟨pos0, .cleanup, k + 1⟩] else []) (pos0 + (p + 1)) .cleanup = 0 := by
            apply countEv_eq_zero_of_pos_ne
            intro e he
            split at he
            · simp only [List.mem_singleton] at he
              subst he
              simp
            · simp at he
          rw [hz, Nat.zero_add]
          have harr : pos0 + (p + 1) = (pos0 + 1) + p := by omega
          rw [harr]
          exact ih (pos0 + 1) p (Nat.lt_of_succ_lt_succ hp)

theorem unmountTraceAux_pairwise {α : Type} [DecidableEq α] (k : Nat)
    (specs : List (EffectSpec α)) (pos0 : Nat) :
    (unmountTraceAux k specs pos0).Pairwise (fun a b => a.pos < b.pos) := by
  induction specs generalizing pos0 with
  | nil => simp [unmountTraceAux]
  | cons spec specs ih =>
      rw [unmountTraceAux]
      apply List.pairwise_append.mpr
      refine ⟨?_, ih (pos0 + 1), ?_⟩
      · split
        · simp
        · simp
      · intro a ha b hb
        have hb' := (mem_unmountTraceAux hb).1
        split at ha
        · simp only [List.mem_singleton] at ha
          subst ha
          exact hb'
        · simp at ha

theorem mem_passesUpTo {α : Type} [DecidableEq α] {specs : List (EffectSpec α)}
    {k : Nat} {e : Event} (he : e ∈ passesUpTo specs k) :
    e.pass ≤ k ∧ ∃ i, ∃ hi : i < specs.length,
      e ∈ cellEvents (specs.get ⟨i, hi⟩) i e.pass := by
  induction k with
  | zero =>
      obtain ⟨i, hi, hmem⟩ := mem_passTraceAux he
      have hpass := (mem_cellEvents hmem).2
      exact ⟨by omega, i, hi, by simpa [hpass] using hmem⟩
  | succ k ih =>
      rcases List.mem_append.mp he with h | h
      · obtain ⟨h1, h2⟩ := ih h
        exact ⟨Nat.le_succ_of_le h1, h2⟩
      · obtain ⟨i, hi, hmem⟩ := mem_passTraceAux h
        have hpass := (mem_cellEvents hmem).2
        exact ⟨by omega, i, hi, by simpa [hpass] using hmem⟩

theorem countEv_passesUpTo {α : Type} [DecidableEq α] (specs : List (EffectSpec α))
    (k p : Nat) (hp : p < specs.length) (kd : EvKind) :
    countEv (passesUpTo specs k) p kd =
      (List.range (k + 1)).foldl
        (fun acc n => acc + countEv (cellEvents (specs.get ⟨p, hp⟩) p n) p kd) 0 := by
  induction k with
  | zero =>
      have := countEv_passTraceAux 0 specs 0 p hp kd
      simpa [passesUpTo, passTrace, List.range_succ] using this
  | succ k ih =>
      rw [passesUpTo, countEv_append, ih]
      have hstep := countEv_passTraceAux (k + 1) specs 0 p hp kd
      rw [Nat.zero_add] at hstep
      rw [passTrace, hstep]
      have hr : (List.range (k + 1 + 1)).foldl
            (fun acc n => acc + countEv (cellEvents (specs.get ⟨p, hp⟩) p n) p kd) 0 =
          (List.range (k + 1)).foldl
            (fun acc n => acc + countEv (cellEvents (specs.get ⟨p, hp⟩) p n) p kd) 0 +
            countEv (cellEvents (specs.get ⟨p, hp⟩) p (k + 1)) p kd := by
        rw [List.range_succ, List.foldl_append]
        simp
      rw [hr]

theorem countEv_eq_zero_of_kind_ne {t : List Event} {p : Nat} {kd : EvKind}
    (h : ∀ e ∈ t, e.kind ≠ kd) : countEv t p kd = 0 := by
  rw [countEv, List.countP_eq_zero]
  intro e he
  simp [evMatches, h e he]

theorem foldl_add_eq_sum (f : Nat → Nat) (l : List Nat) :
    l.foldl (fun acc n => acc + f n) 0 = (l.map f).sum := by
  suffices h : ∀ a, l.foldl (fun acc n => acc + f n) a = a + (l.map f).sum by
    simpa using h 0
  induction l with
  | nil => simp
  | cons x xs ih =>
      intro a
      simp only [List.foldl_cons, List.map_cons, List.sum_cons, ih]
      omega

theorem cellStateAt_of_constant_deps {α : Type} [DecidableEq α] (spec : EffectSpec α)
    (d : DepsArg α) (h : spec.deps = fun _ => d) (n : Nat) :
    (cellStateAt spec n).deps = d := by
  cases n with
  | zero => simp [cellStateAt, h]
  | succ n => simp only [cellStateAt, h]; split <;> rfl

theorem cellStateAt_empty {α : Type} [DecidableEq α] (spec : EffectSpec α)
    (h : spec.deps = fun _ => DepsArg.given []) (n : Nat) :
    cellStateAt spec n = ⟨DepsArg.given [], spec.producesCleanup⟩ := by
  induction n with
  | zero => simp [cellStateAt, h]
  | succ n ih =>
      have hdeps : (cellStateAt spec n).deps = DepsArg.given [] :=
        cellStateAt_of_constant_deps spec _ h n
      simp only [cellStateAt, h, hdeps, argChanged, changed]
      simp [ih]

theorem cellEvents_empty_succ {α : Type} [DecidableEq α] (spec : EffectSpec α)
    (h : spec.deps = fun _ => DepsArg.given []) (pos n : Nat) :
    cellEvents spec pos (n + 1) = [] := by
  have hdeps : (cellStateAt spec n).deps = DepsArg.given [] :=
    cellStateAt_of_constant_deps spec _ h n
  simp [cellEvents, h, hdeps, argChanged, changed]

theorem cellEvents_omitted_run_count {α : Type} [DecidableEq α] (spec : EffectSpec α)
    (h : spec.deps = fun _ => DepsArg.omitted) (pos n : Nat) :
    countEv (cellEvents spec pos n) pos .run = 1 := by
  cases n with
  | zero => simp [cellEvents, countEv, evMatches]
  | succ n =>
      have hch : argChanged (cellStateAt spec n).deps (spec.deps (n + 1)) = true := by
        rw [h]
        cases (cellStateAt spec n).deps <;> rfl
      simp only [cellEvents, hch, if_true]
      rw [countEv_append]
      split <;> simp [countEv, evMatches]

/-- C1: Batching law and its counter scenario.  All update requests that
arrive in the same batch window before a pass starts coalesce into exactly
one pass, which folds the whole queue in arrival order; a StateCell
initialized to 0 that receives three queued increment-by-1 requests holds
3, not 1, after the single coalesced pass; and for plain-value requests
the coalesced pass uses the latest queued value. -/
theorem C1_batching_law {α : Type} :
    (∀ (v : α) (us : List (Update α)), us ≠ [] →
      runEvents ⟨⟨v, []⟩, 0⟩ (us.map .request ++ [.runPass]) =
        ⟨⟨us.foldl applyUpdate v, []⟩, 1⟩) ∧
    (runEvents ⟨⟨(0 : Int), []⟩, 0⟩
        [Ev.request (.updater fun n => n + 1), Ev.request (.updater fun n => n + 1),
         Ev.request (.updater fun n => n + 1), Ev.runPass] = ⟨⟨3, []⟩, 1⟩ ∧
      (3 : Int) ≠ 1) ∧
    (∀ (v : α) (vs : List α),
      (vs.map Update.newValue).foldl applyUpdate v = vs.getLast?.getD v) := by
  refine ⟨?_, ⟨rfl, by decide⟩, foldl_newValue_getLast⟩
  intro v us hus
  rw [runEvents_append, runEvents_requests]
  have hone : runEvents ({ cell := { value := v, pending := [] ++ us }, passes := 0 } :
      Inst α) [Ev.runPass] = stepEv ⟨⟨v, [] ++ us⟩, 0⟩ .runPass := rfl
  rw [hone, runPass_of_pending_ne _ (by simpa using hus)]
  simp [drain]

/-- C2: Dependency Comparator correctness.  `changed(prev, next)` is true
iff `prev` is none (first run), the lengths differ, or some element differs
at the same index; empty against previous empty compares unchanged; an
omitted dependency argument always compares as changed; and the three
dependency-argument forms are distinct values of the stored cell state. -/
theorem C2_dependency_comparator {α : Type} [DecidableEq α] :
    (∀ (prev : Option (List α)) (next : List α),
      changed prev next = true ↔
        prev = none ∨ ∃ p, prev = some p ∧
          (p.length ≠ next.length ∨
            ∃ i, ∃ hp : i < p.length, ∃ hn : i < next.length,
              p.get ⟨i, hp⟩ ≠ next.get ⟨i, hn⟩)) ∧
    changed (some ([] : List α)) [] = false ∧
    (∀ prev : DepsArg α, argChanged prev .omitted = true) ∧
    (∀ l : List α, DepsArg.omitted ≠ DepsArg.given l) ∧
    (∀ (a : α) (l : List α), DepsArg.given ([] : List α) ≠ DepsArg.given (a :: l)) := by
  refine ⟨?_, rfl, ?_, ?_, ?_⟩
  · intro prev next
    cases prev with
    | none => simp [changed]
    | some p =>
        rw [changed_some_iff]
        simp
  · intro prev
    cases prev <;> rfl
  · intro l h
    cases h
  · intro a l h
    cases h

/-- C3: StateCell snapshot invariant.  During one render pass every setter
call is buffered in the pending-update queue and never mutates the current
value in place; every read within the pass returns the pre-pass value; and
the buffered updates become visible exactly when the next pass begins. -/
theorem C3_statecell_snapshot {α : Type} (cell : StateCell α)
    (acts : List (RenderAct α)) :
    (execRender cell acts).2 = List.replicate (countReads acts) cell.value ∧
    (execRender cell acts).1.value = cell.value ∧
    (execRender cell acts).1.pending = cell.pending ++ setsOf acts ∧
    (drain (execRender cell acts).1).value =
      (cell.pending ++ setsOf acts).foldl applyUpdate cell.value := by
  obtain ⟨h1, h2, h3⟩ := execRender_spec acts cell
  refine ⟨h1, h2, h3, ?_⟩
  rw [drain, h2, h3]

/-- C4: MemoCell idempotence under unchanged dependencies.  The compute
function runs only on first creation or when the dependency list differs
per the Dependency Comparator; across two consecutive passes with an
unchanged list, the cached cell is returned and compute is not invoked. -/
theorem C4_memo_idempotence {α : Type} [DecidableEq α] :
    (∀ (compute₁ compute₂ : Unit → α) (deps : List α),
      nextMemoCell (some (nextMemoCell none compute₁ deps).1) compute₂ deps =
        ((nextMemoCell none compute₁ deps).1, 0)) ∧
    (∀ (prev : MemoCell α) (compute : Unit → α) (deps : List α),
      changed (some prev.deps) deps = false →
      nextMemoCell (some prev) compute deps = (prev, 0)) ∧
    (∀ (prev : Option (MemoCell α)) (compute : Unit → α) (deps : List α),
      (nextMemoCell prev compute deps).2 = 1 ↔
        prev = none ∨ ∃ c, prev = some c ∧ changed (some c.deps) deps = true) := by
  refine ⟨?_, ?_, ?_⟩
  · intro compute₁ compute₂ deps
    simp [nextMemoCell, changed_refl]
  · intro prev compute deps h
    rw [nextMemoCell, h]
    simp
  · intro prev compute deps
    cases prev with
    | none => simp [nextMemoCell]
    | some c =>
        by_cases h : changed (some c.deps) deps = true
        · simp [nextMemoCell, h]
        · rw [Bool.not_eq_true] at h
          simp [nextMemoCell, h]

theorem sum_map_ones {l : List Nat} {f : Nat → Nat} (h : ∀ n ∈ l, f n = 1) :
    (l.map f).sum = l.length := by
  induction l with
  | nil => rfl
  | cons x xs ih =>
      rw [List.map_cons, List.sum_cons, h x (List.mem_cons_self x xs),
        ih (fun n hn => h n (List.mem_cons_of_mem x hn))]
      simp [Nat.add_comm]

theorem countEv_unmountTrace_run {α : Type} [DecidableEq α]
    (specs : List (EffectSpec α)) (k p : Nat) :
    countEv (unmountTrace specs k) p .run = 0 := by
  apply countEv_eq_zero_of_kind_ne
  intro e he
  rw [(mem_unmountTraceAux he).2.1]
  simp

/-- C5: Effect cleanup ordering.  A cell whose previous invocation left a
cleanup has that cleanup invoked before the effect re-runs on a changed
dependency list; at instance destruction each outstanding cleanup runs
exactly once, in ascending position order, every destruction event is a
cleanup, and no effect body runs after the last committed pass. -/
theorem C5_effect_cleanup_ordering {α : Type} [DecidableEq α] :
    (∀ (spec : EffectSpec α) (pos n : Nat),
      (cellStateAt spec n).hasCleanup = true →
      argChanged (cellStateAt spec n).deps (spec.deps (n + 1)) = true →
      cellEvents spec pos (n + 1) =
        [⟨pos, .cleanup, n + 1⟩, ⟨pos, .run, n + 1⟩]) ∧
    (∀ (specs : List (EffectSpec α)) (k p : Nat) (hp : p < specs.length),
      countEv (unmountTrace specs k) p .cleanup =
        if (cellStateAt (specs.get ⟨p, hp⟩) k).hasCleanup then 1 else 0) ∧
    (∀ (specs : List (EffectSpec α)) (k : Nat) (e : Event),
      e ∈ unmountTrace specs k → e.kind = .cleanup ∧ e.pass = k + 1) ∧
    (∀ (specs : List (EffectSpec α)) (k : Nat),
      (unmountTrace specs k).Pairwise fun a b => a.pos < b.pos) ∧
    (∀ (specs : List (EffectSpec α)) (k : Nat) (e : Event),
      e ∈ lifecycleTrace specs k → e.kind = .run → e.pass ≤ k) := by
  refine ⟨?_, ?_, ?_, ?_, ?_⟩
  · intro spec pos n h1 h2
    simp [cellEvents, h1, h2]
  · intro specs k p hp
    have := countEv_unmountTraceAux k specs 0 p hp
    simpa using this
  · intro specs k e he
    exact (mem_unmountTraceAux he).2
  · intro specs k
    exact unmountTraceAux_pairwise k specs 0
  · intro specs k e he hrun
    rcases List.mem_append.mp he with h | h
    · exact (mem_passesUpTo h).1
    · have := (mem_unmountTraceAux h).2.1
      rw [hrun] at this
      cases this

/-- C6: Effect execution count as a function of dependency-list form.  A
cell with the empty dependency list runs its body exactly once over the
lifetime (at first mount) and its cleanup exactly once (at unmount), never
in between; a cell with an omitted dependency list runs its body once per
committed pass. -/
theorem C6_effect_execution_counts {α : Type} [DecidableEq α]
    (specs : List (EffectSpec α)) (k p : Nat) (hp : p < specs.length) :
    ((specs.get ⟨p, hp⟩).deps = (fun _ => DepsArg.given []) →
      countEv (lifecycleTrace specs k) p .run = 1 ∧
      (∀ e ∈ lifecycleTrace specs k, e.pos = p → e.kind = .run → e.pass = 0) ∧
      countEv (passesUpTo specs k) p .cleanup = 0 ∧
      ((specs.get ⟨p, hp⟩).producesCleanup = true →
        countEv (lifecycleTrace specs k) p .cleanup = 1 ∧
        ∀ e ∈ lifecycleTrace specs k, e.pos = p → e.kind = .cleanup →
          e.pass = k + 1)) ∧
    ((specs.get ⟨p, hp⟩).deps = (fun _ => DepsArg.omitted) →
      (∀ n, countEv (passTrace specs n) p .run = 1) ∧
      countEv (passesUpTo specs k) p .run = k + 1) := by
  constructor
  · intro h
    have hpassesRun : countEv (passesUpTo specs k) p .run = 1 := by
      rw [countEv_passesUpTo specs k p hp, foldl_add_eq_sum,
        List.range_succ_eq_map, List.map_cons, List.sum_cons, List.map_map]
      have h0 : countEv (cellEvents (specs.get ⟨p, hp⟩) p 0) p .run = 1 := by
        simp [cellEvents, countEv, evMatches]
      have hz : (((List.range k).map fun m =>
          countEv (cellEvents (specs.get ⟨p, hp⟩) p (Nat.succ m)) p .run)).sum = 0 := by
        apply List.sum_eq_zero
        intro x hx
        obtain ⟨m, hm, hxm⟩ := List.mem_map.mp hx
        rw [← hxm, cellEvents_empty_succ _ h]
        rfl
      rw [h0]
      have hcomp : ((List.range k).map
            ((fun n => countEv (cellEvents (specs.get ⟨p, hp⟩) p n) p .run) ∘
              Nat.succ)).sum = 0 := hz
      rw [hcomp]
    have hpassesClean : countEv (passesUpTo specs k) p .cleanup = 0 := by
      rw [countEv_passesUpTo specs k p hp, foldl_add_eq_sum]
      apply List.sum_eq_zero
      intro x hx
      obtain ⟨m, hm, hxm⟩ := List.mem_map.mp hx
      rw [← hxm]
      cases m with
      | zero => simp [cellEvents, countEv, evMatches]
      | succ m =>
          rw [cellEvents_empty_succ _ h]
          rfl
    have hmemPass : ∀ e ∈ passesUpTo specs k, e.pos = p →
        e ∈ cellEvents (specs.get ⟨p, hp⟩) p e.pass := by
      intro e he hpos
      obtain ⟨hle, i, hi, hmem⟩ := mem_passesUpTo he
      have hip : i = p := by
        have := (mem_cellEvents hmem).1
        omega
      subst hip
      exact hmem
    refine ⟨?_, ?_, hpassesClean, ?_⟩
    · rw [lifecycleTrace, countEv_append, hpassesRun, countEv_unmountTrace_run]
    · intro e he hpos hkind
      rcases List.mem_append.mp he with hm | hm
      · have hcell := hmemPass e hm hpos
        cases hpe : e.pass with
        | zero => rfl
        | succ n =>
            rw [hpe, cellEvents_empty_succ _ h] at hcell
            cases hcell
      · have := (mem_unmountTraceAux hm).2.1
        rw [hkind] at this
        cases this
    · intro hpc
      constructor
      · rw [lifecycleTrace, countEv_append, hpassesClean]
        have := countEv_unmountTraceAux k specs 0 p hp
        rw [Nat.zero_add] at this
        rw [unmountTrace, this, cellStateAt_empty _ h, hpc]
        simp
      · intro e he hpos hkind
        rcases List.mem_append.mp he with hm | hm
        · have hcell := hmemPass e hm hpos
          cases hpe : e.pass with
          | zero =>
              rw [hpe] at hcell
              simp only [cellEvents, List.mem_singleton] at hcell
              rw [hcell] at hkind
              cases hkind
          | succ n =>
              rw [hpe, cellEvents_empty_succ _ h] at hcell
              cases hcell
        · exact (mem_unmountTraceAux hm).2.2
  · intro h
    have hper : ∀ n, countEv (passTrace specs n) p .run = 1 := by
      intro n
      have := countEv_passTraceAux n specs 0 p hp .run
      rw [Nat.zero_add] at this
      rw [passTrace, this, cellEvents_omitted_run_count _ h]
    refine ⟨hper, ?_⟩
    rw [countEv_passesUpTo specs k p hp, foldl_add_eq_sum, sum_map_ones, List.length_range]
    intro n hn
    exact cellEvents_omitted_run_count _ h p n

/-- C7: Context shadowing and default.  `read` walks the consumer's
ancestor chain toward the root and returns the nearest publisher's value
for the context identity — nested publishers shadow outer ones, never
merge — and returns the declared default when no publisher exists on the
path. -/
theorem C7_context_shadowing {ι α : Type} [DecidableEq ι] :
    (∀ (pre : List (CtxNode ι α)) (node : CtxNode ι α) (rest : List (CtxNode ι α))
        (ctx : ι) (dflt v : α),
      (∀ m ∈ pre, lookupPub ctx m.pubs = none) →
      lookupPub ctx node.pubs = some v →
      readCtx (pre ++ node :: rest) ctx dflt = v) ∧
    (∀ (chain : List (CtxNode ι α)) (ctx : ι) (dflt : α),
      (∀ m ∈ chain, lookupPub ctx m.pubs = none) →
      readCtx chain ctx dflt = dflt) ∧
    (readCtx ([⟨[]⟩, ⟨[(0, "B")]⟩, ⟨[]⟩, ⟨[(0, "A")]⟩, ⟨[]⟩] :
        List (CtxNode Nat String)) 0 "default" = "B" ∧
      readCtx ([⟨[]⟩, ⟨[(0, "A")]⟩, ⟨[]⟩] : List (CtxNode Nat String)) 0 "default" = "A" ∧
      readCtx ([⟨[]⟩, ⟨[(1, "A")]⟩] : List (CtxNode Nat String)) 0 "default" = "default") := by
  refine ⟨?_, ?_, rfl, rfl, rfl⟩
  · intro pre node rest ctx dflt v hpre hv
    induction pre with
    | nil => simp [readCtx, hv]
    | cons m pre ih =>
        have hm : lookupPub ctx m.pubs = none := hpre m (List.mem_cons_self m pre)
        rw [List.cons_append, readCtx, hm]
        exact ih fun x hx => hpre x (List.mem_cons_of_mem m hx)
  · intro chain ctx dflt hchain
    induction chain with
    | nil => rfl
    | cons m chain ih =>
        have hm : lookupPub ctx m.pubs = none := hchain m (List.mem_cons_self m chain)
        rw [readCtx, hm]
        exact ih fun x hx => hchain x (List.mem_cons_of_mem m hx)

/-- C8: Structural violation error.  A render function whose cell-creating
call count differs between two passes makes the second pass's endPass
raise CellCountMismatchError, never a successful result; the failure is
scoped to that instance: any sibling instance's outcome is unaffected. -/
theorem C8_cell_count_mismatch :
    (∀ f : Nat → Nat, f 1 ≠ f 0 →
      runTwoPasses f = .error .cellCountMismatch ∧
        ∀ c, runTwoPasses f ≠ .ok c) ∧
    runTwoPasses (fun n => if n = 0 then 2 else 1) = .error .cellCountMismatch ∧
    (∀ (fs : List (Nat → Nat)) (i : Nat) (g : Nat → Nat) (j : Nat), i ≠ j →
      (renderAll (fs.set i g))[j]? = (renderAll fs)[j]?) := by
  refine ⟨?_, rfl, ?_⟩
  · intro f h
    have herr : runTwoPasses f = .error .cellCountMismatch := by
      simp [runTwoPasses, endPass, h]
    refine ⟨herr, fun c => ?_⟩
    rw [herr]
    simp
  · intro fs i g j hij
    rw [renderAll, renderAll, List.getElem?_map, List.getElem?_map,
      List.getElem?_set_ne hij]

/-- C9: Implicit counter bounds in the App component.  From the initial
value 15, any finite sequence of AddValue/SubValue invocations (each
applied to the committed state of the previous pass) keeps the counter in
0..19; AddValue is the identity at 19 or above and SubValue at 0 or
below. -/
theorem C9_counter_bounds :
    (∀ ops : List CounterOp, 0 ≤ runCounter ops ∧ runCounter ops ≤ 19) ∧
    (∀ c : Int, 19 ≤ c → AddValue c = c) ∧
    (∀ c : Int, c ≤ 0 → SubValue c = c) := by
  refine ⟨?_, fun c h => addValue_of_ge h, fun c h => subValue_of_nonpos h⟩
  intro ops
  have := foldl_applyOp_bounds ops (c := initialCounter) (by norm_num [initialCounter])
    (by norm_num [initialCounter])
  simpa [runCounter] using this

/-- C10: Implicit QR display condition.  qrValue and text both start
empty, so no QR block renders on first mount; the block renders iff
qrValue is non-empty; and a committed handleGenerate makes the rendered
QR value equal the text as it was at the moment of the click. -/
theorem C10_qr_display :
    initQRState.text = "" ∧ initQRState.qrValue = "" ∧
    rendersQRBlock initQRState = false ∧
    (∀ s : QRState, rendersQRBlock s = true ↔ s.qrValue ≠ "") ∧
    (∀ s : QRState, (handleGenerate s).qrValue = s.text) := by
  refine ⟨rfl, rfl, rfl, ?_, fun s => rfl⟩
  intro s
  simp [rendersQRBlock, stringTruthy]

/-- Witness for C1: a batch of one plain-value request executes exactly
one pass yielding that value. -/
theorem C1_batching_law_witness :
    runEvents ⟨⟨(0 : Int), []⟩, 0⟩
      (([Update.newValue 5]).map .request ++ [.runPass]) = ⟨⟨5, []⟩, 1⟩ :=
  C1_batching_law.1 0 [Update.newValue 5] (List.cons_ne_nil _ _)

/-- Witness for C2: the comparator evaluated at concrete inputs. -/
theorem C2_dependency_comparator_witness :
    changed (some [(1 : Int), 2]) [1, 3] = true ∧
      changed (some ([] : List Int)) [] = false ∧
      argChanged (DepsArg.given [(1 : Int)]) .omitted = true :=
  ⟨(C2_dependency_comparator.1 (some [1, 2]) [1, 3]).mpr
      (Or.inr ⟨[1, 2], rfl, Or.inr ⟨1, by decide, by decide, by decide⟩⟩),
    C2_dependency_comparator.2.1,
    C2_dependency_comparator.2.2.1 (DepsArg.given [1])⟩

/-- Witness for C4: a second pass with the same one-element dependency
list returns the cached cell without invoking compute. -/
theorem C4_memo_idempotence_witness :
    nextMemoCell (some ⟨(5 : Int), [1]⟩) (fun _ => 9) [1] = (⟨5, [1]⟩, 0) :=
  C4_memo_idempotence.2.1 ⟨5, [1]⟩ (fun _ => 9) [1] (by decide)

/-- Witness for C5: a cell whose dependency list changes every pass emits
its previous cleanup immediately before re-running, and destruction runs
its outstanding cleanup once. -/
theorem C5_effect_cleanup_ordering_witness :
    cellEvents (⟨fun n => .given [Int.ofNat n], true⟩ : EffectSpec Int) 0 1 =
        [⟨0, .cleanup, 1⟩, ⟨0, .run, 1⟩] ∧
      countEv (unmountTrace [(⟨fun n => .given [Int.ofNat n], true⟩ : EffectSpec Int)] 0)
        0 .cleanup = 1 :=
  ⟨C5_effect_cleanup_ordering.1 ⟨fun n => .given [Int.ofNat n], true⟩ 0 0 rfl rfl,
    C5_effect_cleanup_ordering.2.1 [⟨fun n => .given [Int.ofNat n], true⟩] 0 0
      (by decide)⟩

/-- Witness for C6: in a two-cell instance over three passes, the
empty-deps cell runs once in total and the omitted-deps cell runs once
per pass. -/
theorem C6_effect_execution_counts_witness :
    countEv (lifecycleTrace
        ([⟨fun _ => .given [], true⟩, ⟨fun _ => .omitted, true⟩] :
          List (EffectSpec Int)) 2) 0 .run = 1 ∧
      countEv (passesUpTo
        ([⟨fun _ => .given [], true⟩, ⟨fun _ => .omitted, true⟩] :
          List (EffectSpec Int)) 2) 1 .run = 3 :=
  ⟨((C6_effect_execution_counts
        [⟨fun _ => .given [], true⟩, ⟨fun _ => .omitted, true⟩] 2 0 (by decide)).1
      rfl).1,
    ((C6_effect_execution_counts
        [⟨fun _ => .given [], true⟩, ⟨fun _ => .omitted, true⟩] 2 1 (by decide)).2
      rfl).2⟩

/-- Witness for C7: the nearest-publisher rule and the default rule at
concrete chains. -/
theorem C7_context_shadowing_witness :
    readCtx ([⟨[]⟩, ⟨[(0, "B")]⟩] : List (CtxNode Nat String)) 0 "d" = "B" ∧
      readCtx ([⟨[(1, "A")]⟩] : List (CtxNode Nat String)) 0 "d" = "d" :=
  ⟨C7_context_shadowing.1 [⟨[]⟩] ⟨[(0, "B")]⟩ [] 0 "d" "B" (by decide) rfl,
    C7_context_shadowing.2.1 [⟨[(1, "A")]⟩] 0 "d" (by decide)⟩

/-- Witness for C8: a conditional hook call raises the mismatch on the
second pass while a sibling instance's outcome is untouched. -/
theorem C8_cell_count_mismatch_witness :
    runTwoPasses (fun n => if n = 0 then 2 else 1) = .error .cellCountMismatch ∧
      (renderAll (([fun _ => 2, fun _ => 2] : List (Nat → Nat)).set 0
          (fun n => if n = 0 then 2 else 1)))[1]? =
        (renderAll ([fun _ => 2, fun _ => 2] : List (Nat → Nat)))[1]? :=
  ⟨(C8_cell_count_mismatch.1 (fun n => if n = 0 then 2 else 1) (by decide)).1,
    C8_cell_count_mismatch.2.2 [fun _ => 2, fun _ => 2] 0
      (fun n => if n = 0 then 2 else 1) 1 (by decide)⟩

/-- Witness for C9: bounds at a concrete click sequence and the two
saturation points. -/
theorem C9_counter_bounds_witness :
    (0 ≤ runCounter [.add, .sub, .add] ∧ runCounter [.add, .sub, .add] ≤ 19) ∧
      AddValue 19 = 19 ∧ SubValue 0 = 0 :=
  ⟨C9_counter_bounds.1 [.add, .sub, .add],
    C9_counter_bounds.2.1 19 (by norm_num),
    C9_counter_bounds.2.2 0 (by norm_num)⟩

end ReactModel
